import Mathlib

/-!
Shallow embedding of the Cashier bookkeeping application (treasury ledger,
backup import merge, shipping reconciliation, customer ledger, cash-count
reconciler) together with proofs about the embedded operations.

Amounts and balances are modelled as rationals (`ℚ`), timestamps as the
parsed numeric instants the source compares with (`ℚ` for treasury entries,
`ℤ` day indices for the shipping ledger's calendar days).
-/

namespace Cashier

/-! ### Treasury data model (types.ts) -/

/-- The two transaction kinds of the treasury ledger (`TransactionType` enum,
stored as the strings ايراد / مصروف). -/
inductive TransactionType where
  | INCOME
  | EXPENSE
deriving DecidableEq

/-- A treasury entry (`Transaction` in types.ts).  `date` is the numeric
instant `new Date(t.date).getTime()` that the source uses for every
comparison on this field. -/
structure Transaction where
  id : List Char
  date : ℚ
  description : List Char
  amount : ℚ
  type : TransactionType
deriving DecidableEq

/-- A transaction annotated with the running balance after it, as produced by
the `transactionsWithBalance` map in `TreasuryPage`. -/
structure TransactionWithBalance where
  tx : Transaction
  balance : ℚ
deriving DecidableEq

/-- Comparison used by every `.sort((a,b) => new Date(a.date).getTime() - new
Date(b.date).getTime())` call: ascending timestamps. -/
def dateLe (a b : Transaction) : Prop := a.date ≤ b.date

instance : DecidableRel dateLe := fun a b => inferInstanceAs (Decidable (a.date ≤ b.date))

instance : IsTotal Transaction dateLe := ⟨fun a b => le_total a.date b.date⟩

instance : IsTrans Transaction dateLe := ⟨fun _ _ _ h h' => le_trans h h'⟩

/-- The running-balance annotation pass of `TreasuryPage`: walk the sorted
list with a running balance, adding Income amounts and subtracting Expense
amounts, and pair each entry with the balance after it. -/
def annotateBalances : ℚ → List Transaction → List TransactionWithBalance
  | _, [] => []
  | runningBalance, t :: ts =>
    let b := if t.type = TransactionType.INCOME then runningBalance + t.amount
             else runningBalance - t.amount
    ⟨t, b⟩ :: annotateBalances b ts

/-- `income` in `TreasuryPage`'s summary memo: sum of amounts over the
Income-kind entries of the unfiltered collection. -/
def totalIncome (transactions : List Transaction) : ℚ :=
  ((transactions.filter (fun t => t.type = TransactionType.INCOME)).map (·.amount)).sum

/-- `expense` in `TreasuryPage`'s summary memo: sum of amounts over the
Expense-kind entries of the unfiltered collection. -/
def totalExpense (transactions : List Transaction) : ℚ :=
  ((transactions.filter (fun t => t.type = TransactionType.EXPENSE)).map (·.amount)).sum

/-- `computeRunningBalances` (spec §4.1): the `sortedTransactions` /
`transactionsWithBalance` pipeline of `TreasuryPage` — sort ascending by
timestamp with a stable sort, then annotate running balances starting
from 0. -/
def computeRunningBalances (transactions : List Transaction) : List TransactionWithBalance :=
  annotateBalances 0 (transactions.insertionSort dateLe)

/-- The filter predicate of `TreasuryPage`: case-insensitive substring match
on the description, plus inclusive date bounds when at least one bound is
set.  `startBound`/`endBound` are the already-normalized start-of-day /
end-of-day instants (`setHours(0,0,0,0)` / `setHours(23,59,59,999)`). -/
def filterPred (filterText : List Char) (startBound endBound : Option ℚ)
    (t : TransactionWithBalance) : Bool :=
  let matchesText :=
    decide (List.IsInfix (filterText.map Char.toLower) (t.tx.description.map Char.toLower))
  if startBound.isNone && endBound.isNone then matchesText
  else
    let matchesDate :=
      (match startBound with
       | none => true
       | some s => decide (s ≤ t.tx.date)) &&
      (match endBound with
       | none => true
       | some e => decide (t.tx.date ≤ e))
    matchesText && matchesDate

/-- The summary + filtered view computed by `TreasuryPage`'s `useMemo`. -/
structure TreasuryView where
  totalIncome : ℚ
  totalExpense : ℚ
  currentBalance : ℚ
  filteredTransactions : List TransactionWithBalance

/-- `computeSummary` / `filterView` (spec §4.1): the whole `useMemo` body of
`TreasuryPage`.  Income and expense are summed over the unfiltered
`transactions`; the filtered list is the running-balance-annotated sorted
list filtered by text and date bounds, reversed to show newest first. -/
def treasuryView (transactions : List Transaction) (filterText : List Char)
    (startBound endBound : Option ℚ) : TreasuryView :=
  let transactionsWithBalance := computeRunningBalances transactions
  let income := totalIncome transactions
  let expense := totalExpense transactions
  let filtered := (transactionsWithBalance.filter (filterPred filterText startBound endBound)).reverse
  ⟨income, expense, income - expense, filtered⟩

/-- The signed contribution of one entry to the running balance. -/
def signedAmount (t : Transaction) : ℚ :=
  if t.type = TransactionType.INCOME then t.amount else -t.amount

/-- The signed sum of a list of entries. -/
def signedSum (l : List Transaction) : ℚ :=
  (l.map signedAmount).sum

/-! ### Backup import (handleImport in TreasuryPage) -/

/-- One step of `new Map(combined.map(t => [t.id, t]))`: a JS `Map` `set`
updates the value in place when the key is already present (keeping the key's
first-insertion position) and appends a fresh entry otherwise. -/
def insertTx (m : List Transaction) (t : Transaction) : List Transaction :=
  if m.any (fun u => u.id = t.id) then m.map (fun u => if u.id = t.id then t else u)
  else m ++ [t]

/-- `Array.from(new Map(combined.map(t => [t.id, t])).values())`: de-duplicate
by id, last occurrence winning on value, keys kept in first-occurrence
order. -/
def dedupeById (combined : List Transaction) : List Transaction :=
  combined.foldl insertTx []

/-- The merge performed by a confirmed import: concatenate existing then
imported entries, de-duplicate on id, and sort ascending by timestamp with
the (stable) array sort. -/
def importMerge (existing imported : List Transaction) : List Transaction :=
  (dedupeById (existing ++ imported)).insertionSort dateLe

/-- Untyped JSON-like values, as produced by `JSON.parse` on the backup
file.  Object fields are an ordered association list. -/
inductive JVal where
  | null
  | bool (b : Bool)
  | num (q : ℚ)
  | str (s : List Char)
  | arr (elems : List JVal)
  | obj (fields : List (List Char × JVal))

/-- JS truthiness of a value (`NaN` does not arise here; `undefined` is
handled at the lookup level by `Option`). -/
def JVal.truthy : JVal → Bool
  | .null => false
  | .bool b => b
  | .num q => decide (q ≠ 0)
  | .str s => decide (s ≠ [])
  | .arr _ => true
  | .obj _ => true

/-- JS property access `v[k]`: a field lookup on objects, `undefined`
(`none`) on every non-object.  Property access on `null` throws instead; the
one place that can happen (`importedData.transactions` with a null payload)
is special-cased in `handleImport` below. -/
def JVal.get : JVal → List Char → Option JVal
  | .obj fields, k => (fields.find? (fun p => p.1 = k)).map (·.2)
  | _, _ => none

/-- Truthiness of a possibly-undefined value: `undefined` is falsy. -/
def truthyOpt (v : Option JVal) : Bool :=
  match v with
  | none => false
  | some x => x.truthy

/-- The per-entry validation of `handleImport`:
`t.id && t.date && t.description && t.amount && t.type` — a truthiness check
on each required field. -/
def entryValid (t : JVal) : Bool :=
  truthyOpt (t.get "id".toList) && truthyOpt (t.get "date".toList) &&
  truthyOpt (t.get "description".toList) && truthyOpt (t.get "amount".toList) &&
  truthyOpt (t.get "type".toList)

/-- Conversion of a validated raw backup entry into the typed transaction
record.  The source merges the raw objects as-is and downstream code reads
exactly these fields (id as the Map key, date through `new Date(...)
.getTime()`, description, amount, type); this reads the same fields, with
the timestamp already in its parsed numeric form and with fields of
unexpected shapes mapped to the corresponding defaults. -/
def decodeTx (v : JVal) : Transaction where
  id := match v.get "id".toList with
    | some (.str s) => s
    | _ => []
  date := match v.get "date".toList with
    | some (.num q) => q
    | _ => 0
  description := match v.get "description".toList with
    | some (.str s) => s
    | _ => []
  amount := match v.get "amount".toList with
    | some (.num q) => q
    | _ => 0
  type := match v.get "type".toList with
    | some (.str s) => if s = "ايراد".toList then TransactionType.INCOME
                       else TransactionType.EXPENSE
    | _ => TransactionType.EXPENSE

/-- `handleImport` / `importBackup` (spec §4.1) on a parsed payload:
`none` models the catch branch (error notice, state untouched).  A `null`
payload throws on property access and is caught; otherwise
`importedData.transactions || []` replaces a falsy (or absent) transactions
value by the empty array, the result must be an array whose entries all pass
`entryValid`, and on success the merged collection is installed. -/
def handleImport (existing : List Transaction) (payload : JVal) : Option (List Transaction) :=
  match payload with
  | .null => none
  | _ =>
    let importedTransactions :=
      match payload.get "transactions".toList with
      | some v => if v.truthy then v else JVal.arr []
      | none => JVal.arr []
    match importedTransactions with
    | .arr entries =>
      if entries.all entryValid then some (importMerge existing (entries.map decodeTx))
      else none
    | _ => none

/-- The state seen after the import handler runs: the merged collection on
success, the unchanged existing collection when the import was aborted. -/
def applyImport (existing : List Transaction) (payload : JVal) : List Transaction :=
  (handleImport existing payload).getD existing

/-! ### Shipping reconciliation engine (ShippingPage)

Two granularities are used.  Records are keyed by calendar-date numbers
(`toYyyyMmDd` keys, one integer per YYYY-MM-DD string), and the
receivables-modal handler is modelled at instant level (integer milliseconds
since the epoch) with an explicit fixed UTC offset, because its
`new Date(currentDate)` / `setHours(0,0,0,0)` pipeline mixes UTC parsing with
local renormalization and therefore depends on the environment's offset.
For the other handlers a day-index view (`getDaysInYear` as indices
`0, ..., n-1` used directly as keys, `setDate(getDate() - 1)` as `d - 1`) is
used; it coincides with the instant-level model at UTC offset 0
(`propagateReceivables_zero_offset` below), and the claims proved over it do
not depend on which keys the propagation touches. -/

/-- The seven payment channels of a daily shipping record. -/
inductive PaymentField where
  | fawry
  | instapay
  | cards
  | aman
  | bedayti
  | cash
  | masary
deriving DecidableEq

/-- The `payments` object of a `DailyShippingRecord`. -/
structure Payments where
  fawry : ℚ
  instapay : ℚ
  cards : ℚ
  aman : ℚ
  bedayti : ℚ
  cash : ℚ
  masary : ℚ
deriving DecidableEq

/-- Read one channel of the payments object. -/
def Payments.get (p : Payments) : PaymentField → ℚ
  | .fawry => p.fawry
  | .instapay => p.instapay
  | .cards => p.cards
  | .aman => p.aman
  | .bedayti => p.bedayti
  | .cash => p.cash
  | .masary => p.masary

/-- The computed-key spread `{ ...payments, [field]: value }`. -/
def Payments.set (p : Payments) : PaymentField → ℚ → Payments
  | .fawry, v => { p with fawry := v }
  | .instapay, v => { p with instapay := v }
  | .cards, v => { p with cards := v }
  | .aman, v => { p with aman := v }
  | .bedayti, v => { p with bedayti := v }
  | .cash, v => { p with cash := v }
  | .masary, v => { p with masary := v }

/-- `Object.values(record.payments).reduce((sum, val) => sum + val, 0)`. -/
def Payments.total (p : Payments) : ℚ :=
  p.fawry + p.instapay + p.cards + p.aman + p.bedayti + p.cash + p.masary

/-- `CashDenomination` from types.ts.  Counts come from `parseInt(...) || 0`,
hence integers. -/
structure CashDenomination where
  value : ℚ
  count : ℤ
deriving DecidableEq

/-- `DailyShippingRecord` from types.ts, with the date as a day index. -/
structure DailyShippingRecord where
  date : ℤ
  payments : Payments
  cashDetails : List CashDenomination
  receivables : ℚ
deriving DecidableEq

/-- `DEFAULT_SHIPPING_RECORD` spread with the date key
(`{ ...DEFAULT_SHIPPING_RECORD, date }`). -/
def DEFAULT_SHIPPING_RECORD (date : ℤ) : DailyShippingRecord :=
  ⟨date, ⟨0, 0, 0, 0, 0, 0, 0⟩, [], 0⟩

/-- The `dailyRecords` map: `none` for a date key absent from the map. -/
def RecordsMap : Type := ℤ → Option DailyShippingRecord

/-- The initial persistent state: an empty records map (`{}`). -/
def emptyRecords : RecordsMap := fun _ => none

/-- `SHIPPING_DENOMINATIONS`: the fixed 8-value denomination set. -/
def SHIPPING_DENOMINATIONS : List ℚ := [200, 100, 50, 20, 10, 5, 1, 1/2]

/-- `TREASURY_DENOMINATIONS`: the fixed 9-value denomination set of the
treasury cash-count modal. -/
def TREASURY_DENOMINATIONS : List ℚ := [200, 100, 50, 20, 10, 5, 1, 1/2, 1/4]

/-- `getDaysInYear()` as day indices `0, ..., n - 1` where `n` is the number
of days in the current year. -/
def getDaysInYear (n : ℕ) : List ℤ :=
  (List.range n).map (fun (i : ℕ) => (i : ℤ))

/-- `handlePaymentChange(date, field, value)`: coerce the input
(`parseFloat(value) || 0`, with `none` standing for an unparsable input) and
overwrite that single channel of that date's record, materializing the
default record if the date was absent. -/
def handlePaymentChange (m : RecordsMap) (date : ℤ) (field : PaymentField)
    (value : Option ℚ) : RecordsMap :=
  let numericValue := match value with
    | none => 0
    | some q => q
  let currentRecord := (m date).getD (DEFAULT_SHIPPING_RECORD date)
  let updatedPayments := currentRecord.payments.set field numericValue
  fun d => if d = date then some { currentRecord with payments := updatedPayments } else m d

/-- `handleSaveCashDetails(date, cashDetails)`: replace the cash-detail list
of that date's record. -/
def handleSaveCashDetails (m : RecordsMap) (date : ℤ)
    (cashDetails : List CashDenomination) : RecordsMap :=
  let currentRecord := (m date).getD (DEFAULT_SHIPPING_RECORD date)
  fun d => if d = date then some { currentRecord with cashDetails := cashDetails } else m d

/-- `ShippingCashModal.handleSave`: build the saved list from the counts map —
one entry per denomination of the fixed set, then drop the entries with
`count > 0` false. -/
def modalCashDetails (counts : ℚ → ℤ) : List CashDenomination :=
  (SHIPPING_DENOMINATIONS.map (fun value => CashDenomination.mk value (counts value))).filter
    (fun item => 0 < item.count)

/-- One step of the propagation loop in `handleAddTransaction`: overwrite the
`receivables` field of one date's record, materializing the default record if
the date was absent. -/
def setReceivables (newTotalBalance : ℚ) (recs : RecordsMap) (dateKey : ℤ) : RecordsMap :=
  let existingRecord := (recs dateKey).getD (DEFAULT_SHIPPING_RECORD dateKey)
  fun d => if d = dateKey then some { existingRecord with receivables := newTotalBalance }
           else recs d

/-- The receivables propagation expressed directly on day-index keys: every
key of the year list that is `≥` the key the modal was opened against is
overwritten.  This is the behavior of `propagateReceivables` below in an
environment whose UTC offset is zero (`propagateReceivables_zero_offset`);
in a non-UTC environment the real handler starts one key earlier.  The
reachable-state development uses this keyed form, whose claims do not depend
on which keys the propagation touches. -/
def propagateReceivablesUTC (n : ℕ) (m : RecordsMap) (currentDate : ℤ)
    (newTotalBalance : ℚ) : RecordsMap :=
  let futureDates := (getDaysInYear n).filter (fun d => currentDate ≤ d)
  futureDates.foldl (setReceivables newTotalBalance) m

/-- Milliseconds per calendar day: JS `Date` arithmetic works in ms. -/
def MS_PER_DAY : ℤ := 86400000

/-- The instant of the local midnight of calendar day `k`, in an environment
whose fixed UTC offset is `off` milliseconds (local time = UTC + `off`;
Cairo is `off = 7200000` or `10800000`). -/
def localMidnight (off k : ℤ) : ℤ :=
  k * MS_PER_DAY - off

/-- `getDaysInYear()` at instant level: `new Date(year, 0, 1)` then
`setDate(getDate() + 1)` produce the local midnights of the year's calendar
days `0, ..., n - 1`. -/
def getDaysInYearTZ (off : ℤ) (n : ℕ) : List ℤ :=
  (List.range n).map (fun (k : ℕ) => localMidnight off (k : ℤ))

/-- `toYyyyMmDd(date) = date.toISOString().split('T')[0]`: the UTC calendar
date of an instant, i.e. floor division by the day length. -/
def toYyyyMmDd (t : ℤ) : ℤ :=
  t.fdiv MS_PER_DAY

/-- `new Date(currentDate)`: a date-only YYYY-MM-DD key parses as the UTC
midnight of that calendar date. -/
def parseDateKey (k : ℤ) : ℤ :=
  k * MS_PER_DAY

/-- `setHours(0, 0, 0, 0)`: replace an instant by the local midnight of its
local calendar date. -/
def setHoursZero (off t : ℤ) : ℤ :=
  (t + off).fdiv MS_PER_DAY * MS_PER_DAY - off

/-- `propagateReceivables(fromDate, newTotal)` (spec §4.2) — the
`setDailyRecords` updater of `handleAddTransaction`, at instant level in an
environment with UTC offset `off`: `modalStartDate = new Date(currentDate)`
(UTC midnight of the key) renormalized by `setHours(0,0,0,0)` (local), then
every day Date of the year list that is `≥ modalStartDate` has the record at
its `toYyyyMmDd` key overwritten with the new total. -/
def propagateReceivables (n : ℕ) (off : ℤ) (m : RecordsMap) (currentDate : ℤ)
    (newTotalBalance : ℚ) : RecordsMap :=
  let modalStartDate := setHoursZero off (parseDateKey currentDate)
  let futureDates := (getDaysInYearTZ off n).filter (fun d => modalStartDate ≤ d)
  futureDates.foldl (fun recs d => setReceivables newTotalBalance recs (toYyyyMmDd d)) m

/-! ### Customer ledger -/

/-- `CustomerTransaction` from types.ts. -/
structure CustomerTransaction where
  id : List Char
  date : ℚ
  description : List Char
  amount : ℚ
deriving DecidableEq

/-- `Customer` from types.ts. -/
structure Customer where
  id : List Char
  name : List Char
  transactions : List CustomerTransaction
deriving DecidableEq

/-- `calculateCustomerBalance`: the signed sum of a customer's transaction
amounts. -/
def calculateCustomerBalance (c : Customer) : ℚ :=
  (c.transactions.map (·.amount)).sum

/-- `ReceivablesModal.handleAddTransaction` in an environment with UTC
offset `off`: append the new transaction to the selected customer, recompute
the total balance over all customers, and propagate it forward from the date
key the modal was opened against.  Returns the updated customer list and
records map. -/
def handleAddTransaction (n : ℕ) (off : ℤ) (customers : List Customer) (m : RecordsMap)
    (selectedCustomerId : List Char) (newTransaction : CustomerTransaction)
    (currentDate : ℤ) : List Customer × RecordsMap :=
  let newCustomers := customers.map (fun c =>
    if c.id = selectedCustomerId then { c with transactions := c.transactions ++ [newTransaction] }
    else c)
  let newTotalBalance := (newCustomers.map calculateCustomerBalance).sum
  (newCustomers, propagateReceivables n off m currentDate newTotalBalance)

/-! ### Per-day calculations and day-over-day difference -/

/-- The results of `getRecordCalculations`. -/
structure RecordCalculations where
  totalBalances : ℚ
  cashTotal : ℚ
  grandTotal : ℚ
deriving DecidableEq

/-- `getRecordCalculations(date)`: totals of the record at that date (the
default record when absent). -/
def getRecordCalculations (m : RecordsMap) (date : ℤ) : RecordCalculations :=
  let record := (m date).getD (DEFAULT_SHIPPING_RECORD date)
  let totalBalances := record.payments.total
  let cashTotal := (record.cashDetails.map (fun item => item.value * (item.count : ℚ))).sum
  let grandTotal := totalBalances + cashTotal + record.receivables
  ⟨totalBalances, cashTotal, grandTotal⟩

/-- `computeDayOverDayDifference` — the `difference` computed per table row:
this day's grand total minus the previous day's grand total. -/
def computeDayOverDayDifference (m : RecordsMap) (date : ℤ) : ℚ :=
  (getRecordCalculations m date).grandTotal - (getRecordCalculations m (date - 1)).grandTotal

/-! ### Reachable shipping states

The records map starts empty and is only ever written by the three handlers,
each invoked with a date key drawn from the rendered year rows. -/

/-- All states of the shipping records map reachable through the
application's mutation handlers, starting from the empty map. -/
inductive Reachable (n : ℕ) : RecordsMap → Prop where
  | init : Reachable n emptyRecords
  | payment {m : RecordsMap} (date : ℤ) (field : PaymentField) (value : Option ℚ) :
      Reachable n m → date ∈ getDaysInYear n →
      Reachable n (handlePaymentChange m date field value)
  | cashSave {m : RecordsMap} (date : ℤ) (counts : ℚ → ℤ) :
      Reachable n m → date ∈ getDaysInYear n →
      Reachable n (handleSaveCashDetails m date (modalCashDetails counts))
  | receivables {m : RecordsMap} (currentDate : ℤ) (newTotalBalance : ℚ) :
      Reachable n m → currentDate ∈ getDaysInYear n →
      Reachable n (propagateReceivablesUTC n m currentDate newTotalBalance)

/-! ### Cash-count reconciler (CashCountModal) -/

/-- The tri-state classification shown by the cash-count modal. -/
inductive VarianceStatus where
  | balanced
  | shortage (amount : ℚ)
  | surplus (amount : ℚ)
deriving DecidableEq

/-- `computeVariance` (spec §4.4): the `difference = totalCash -
systemBalance` of `CashCountModal`. -/
def computeVariance (countedTotal systemBalance : ℚ) : ℚ :=
  countedTotal - systemBalance

/-- `CashCountModal.getStatus`: variance 0 is balanced (مطابق), negative is a
shortage (عجز) reporting the absolute value, positive is a surplus (زيادة)
reporting the variance itself. -/
def getStatus (countedTotal systemBalance : ℚ) : VarianceStatus :=
  let difference := computeVariance countedTotal systemBalance
  if difference = 0 then VarianceStatus.balanced
  else if difference < 0 then VarianceStatus.shortage |difference|
  else VarianceStatus.surplus difference

/-! ### Helper lemmas: payments get/set -/

theorem Payments.get_set_same (p : Payments) (f : PaymentField) (v : ℚ) :
    (p.set f v).get f = v := by
  cases f <;> rfl

theorem Payments.get_set_other (p : Payments) (f f' : PaymentField) (v : ℚ) (h : f' ≠ f) :
    (p.set f v).get f' = p.get f' := by
  cases f <;> cases f' <;> first
    | exact absurd rfl h
    | rfl

/-! ### C8: variance classification -/

/-- C8: `computeVariance` returns the signed difference `countedTotal −
systemBalance`, and the classification is exactly tri-state: variance 0 is
Balanced, negative variance is a Shortage reporting the absolute value,
positive variance is a Surplus reporting the variance itself — for every
counted total and system balance. -/
theorem computeVariance_classification (countedTotal systemBalance : ℚ) :
    computeVariance countedTotal systemBalance = countedTotal - systemBalance ∧
    (computeVariance countedTotal systemBalance = 0 →
      getStatus countedTotal systemBalance = VarianceStatus.balanced) ∧
    (computeVariance countedTotal systemBalance < 0 →
      getStatus countedTotal systemBalance =
        VarianceStatus.shortage |computeVariance countedTotal systemBalance|) ∧
    (0 < computeVariance countedTotal systemBalance →
      getStatus countedTotal systemBalance =
        VarianceStatus.surplus (computeVariance countedTotal systemBalance)) := by
  refine ⟨rfl, fun h0 => ?_, fun hneg => ?_, fun hpos => ?_⟩
  · simp [getStatus, h0]
  · simp [getStatus, hneg, ne_of_lt hneg]
  · simp [getStatus, hpos, not_lt_of_gt hpos, ne_of_gt hpos]

/-- Witness for C8 at the spec's three sample inputs: counted 450 against
system balance 450 is Balanced, counted 400 is a Shortage of 50, counted 500
is a Surplus of 50. -/
theorem computeVariance_classification_witness :
    getStatus 450 450 = VarianceStatus.balanced ∧
    getStatus 400 450 = VarianceStatus.shortage 50 ∧
    getStatus 500 450 = VarianceStatus.surplus 50 := by
  refine ⟨(computeVariance_classification 450 450).2.1 (by norm_num [computeVariance]),
    ?_, ?_⟩
  · have h := (computeVariance_classification 400 450).2.2.1
      (by norm_num [computeVariance])
    rwa [show |computeVariance 400 450| = 50 by norm_num [computeVariance]] at h
  · have h := (computeVariance_classification 500 450).2.2.2
      (by norm_num [computeVariance])
    rwa [show computeVariance 500 450 = 50 by norm_num [computeVariance]] at h

/-! ### C3: the summary is global and filter-independent -/

/-- C3: for every transaction collection and every active text/date filter,
the summary's totalIncome is the sum of the amounts of the Income-kind
entries of the full unfiltered collection, totalExpense the sum over the
Expense-kind entries, and the balance is totalIncome minus totalExpense; in
particular all three are identical under any two filter configurations. -/
theorem computeSummary_global (transactions : List Transaction) (filterText filterText' : List Char)
    (startBound endBound startBound' endBound' : Option ℚ) :
    (treasuryView transactions filterText startBound endBound).totalIncome =
      ((transactions.filter (fun t => t.type = TransactionType.INCOME)).map (·.amount)).sum ∧
    (treasuryView transactions filterText startBound endBound).totalExpense =
      ((transactions.filter (fun t => t.type = TransactionType.EXPENSE)).map (·.amount)).sum ∧
    (treasuryView transactions filterText startBound endBound).currentBalance =
      (treasuryView transactions filterText startBound endBound).totalIncome -
        (treasuryView transactions filterText startBound endBound).totalExpense ∧
    (treasuryView transactions filterText startBound endBound).totalIncome =
      (treasuryView transactions filterText' startBound' endBound').totalIncome ∧
    (treasuryView transactions filterText startBound endBound).totalExpense =
      (treasuryView transactions filterText' startBound' endBound').totalExpense ∧
    (treasuryView transactions filterText startBound endBound).currentBalance =
      (treasuryView transactions filterText' startBound' endBound').currentBalance :=
  ⟨rfl, rfl, rfl, rfl, rfl, rfl⟩

/-! ### C10: handlePaymentChange frame effect -/

/-- C10: `handlePaymentChange` on date D and channel c updates only the c
entry of record D's payments map (to the coerced numeric input); record D's
date, cashDetails and receivables and its other six payment channels keep the
values of the prior record at D (the default record if D was absent), and the
record of every other date is unchanged. -/
theorem handlePaymentChange_frame (m : RecordsMap) (date : ℤ) (field : PaymentField)
    (value : Option ℚ) :
    (∀ d, d ≠ date → handlePaymentChange m date field value d = m d) ∧
    (∃ r, handlePaymentChange m date field value date = some r ∧
      r.date = ((m date).getD (DEFAULT_SHIPPING_RECORD date)).date ∧
      r.cashDetails = ((m date).getD (DEFAULT_SHIPPING_RECORD date)).cashDetails ∧
      r.receivables = ((m date).getD (DEFAULT_SHIPPING_RECORD date)).receivables ∧
      (∀ f, f ≠ field →
        r.payments.get f = ((m date).getD (DEFAULT_SHIPPING_RECORD date)).payments.get f) ∧
      r.payments.get field = match value with
        | none => 0
        | some q => q) := by
  constructor
  · intro d hd
    simp only [handlePaymentChange, if_neg hd]
  · have hr : handlePaymentChange m date field value date =
        some { (m date).getD (DEFAULT_SHIPPING_RECORD date) with
          payments := ((m date).getD (DEFAULT_SHIPPING_RECORD date)).payments.set field
            (match value with
             | none => 0
             | some q => q) } := by
      simp only [handlePaymentChange, if_true, if_pos]
    exact ⟨_, hr, rfl, rfl, rfl, fun f hf => Payments.get_set_other _ _ _ _ hf,
      Payments.get_set_same _ _ _⟩

/-- Witness for C10: a concrete payment change on day 3 of an empty records
map leaves day 2 absent and produces a record at day 3 whose cash channel is
7 while every other field is the default. -/
theorem handlePaymentChange_frame_witness :
    handlePaymentChange emptyRecords 3 PaymentField.cash (some 7) 2 = none ∧
    ∃ r, handlePaymentChange emptyRecords 3 PaymentField.cash (some 7) 3 = some r ∧
      r.cashDetails = [] ∧ r.receivables = 0 ∧
      r.payments.get PaymentField.fawry = 0 ∧ r.payments.get PaymentField.cash = 7 := by
  obtain ⟨hframe, r, hr, -, hcd, hrecv, hother, hfield⟩ :=
    handlePaymentChange_frame emptyRecords 3 PaymentField.cash (some 7)
  refine ⟨(hframe 2 (by decide)).trans rfl, r, hr, ?_, ?_, ?_, hfield⟩
  · exact hcd.trans rfl
  · exact hrecv.trans rfl
  · exact (hother PaymentField.fawry (by decide)).trans rfl

/-! ### Helper lemmas: running balances and sort stability -/

theorem map_tx_annotateBalances (b : ℚ) (l : List Transaction) :
    (annotateBalances b l).map (·.tx) = l := by
  induction l generalizing b with
  | nil => rfl
  | cons t ts ih => simp [annotateBalances, ih]

theorem annotateBalances_ne_nil (b : ℚ) {l : List Transaction} (h : l ≠ []) :
    annotateBalances b l ≠ [] := by
  cases l with
  | nil => exact absurd rfl h
  | cons t ts => exact List.cons_ne_nil _ _

theorem getLast?_cons_of_ne_nil {α : Type _} (a : α) {l : List α} (h : l ≠ []) :
    (a :: l).getLast? = l.getLast? := by
  cases l with
  | nil => exact absurd rfl h
  | cons b m => exact List.getLast?_cons_cons

theorem signedSum_cons (t : Transaction) (ts : List Transaction) :
    signedSum (t :: ts) = signedAmount t + signedSum ts := by
  simp [signedSum]

theorem getLast?_annotateBalances (b : ℚ) (l : List Transaction) (h : l ≠ []) :
    ((annotateBalances b l).map (·.balance)).getLast? = some (b + signedSum l) := by
  induction l generalizing b with
  | nil => exact absurd rfl h
  | cons t ts ih =>
    rw [show annotateBalances b (t :: ts) =
      (⟨t, if t.type = TransactionType.INCOME then b + t.amount else b - t.amount⟩ :
          TransactionWithBalance) ::
        annotateBalances (if t.type = TransactionType.INCOME then b + t.amount
          else b - t.amount) ts from rfl]
    rcases ts with - | ⟨u, us⟩
    · simp only [annotateBalances, List.map_cons, List.map_nil, List.getLast?_singleton,
        Option.some.injEq, signedSum_cons, signedSum, List.map_nil, List.sum_nil]
      by_cases ht : t.type = TransactionType.INCOME <;>
        (simp [ht, signedAmount]; try ring)
    · rw [List.map_cons,
        getLast?_cons_of_ne_nil _
          (fun e => annotateBalances_ne_nil _ (List.cons_ne_nil u us)
            (List.map_eq_nil_iff.mp e)),
        ih _ (List.cons_ne_nil u us), signedSum_cons]
      congr 1
      by_cases ht : t.type = TransactionType.INCOME <;>
        (simp [ht, signedAmount, signedSum_cons]; try ring)

theorem signedSum_perm {l l' : List Transaction} (h : l.Perm l') :
    signedSum l = signedSum l' :=
  (h.map signedAmount).sum_eq

theorem totalIncome_cons (t : Transaction) (ts : List Transaction) :
    totalIncome (t :: ts) =
      (if t.type = TransactionType.INCOME then t.amount else 0) + totalIncome ts := by
  by_cases ht : t.type = TransactionType.INCOME <;>
    simp [totalIncome, List.filter_cons, ht]

theorem totalExpense_cons (t : Transaction) (ts : List Transaction) :
    totalExpense (t :: ts) =
      (if t.type = TransactionType.EXPENSE then t.amount else 0) + totalExpense ts := by
  by_cases ht : t.type = TransactionType.EXPENSE <;>
    simp [totalExpense, List.filter_cons, ht]

theorem signedSum_eq_income_sub_expense (l : List Transaction) :
    signedSum l = totalIncome l - totalExpense l := by
  induction l with
  | nil => simp [signedSum, totalIncome, totalExpense]
  | cons t ts ih =>
    rw [signedSum_cons, totalIncome_cons, totalExpense_cons, ih]
    cases htype : t.type <;> simp [signedAmount, htype] <;> ring

theorem filter_date_orderedInsert_of_eq (ts : ℚ) (t : Transaction) (l : List Transaction)
    (ht : t.date = ts) :
    (l.orderedInsert dateLe t).filter (fun a => a.date = ts) =
      t :: l.filter (fun a => a.date = ts) := by
  induction l with
  | nil => simp [ht]
  | cons b l ih =>
    rw [List.orderedInsert]
    by_cases h : dateLe t b
    · rw [if_pos h]
      simp [List.filter_cons, ht]
    · rw [if_neg h]
      have hb : ¬(b.date = ts) := by
        intro e
        exact h (show t.date ≤ b.date from by rw [e, ht])
      simp [List.filter_cons, hb, ih]

theorem filter_date_orderedInsert_of_ne (ts : ℚ) (t : Transaction) (l : List Transaction)
    (ht : ¬(t.date = ts)) :
    (l.orderedInsert dateLe t).filter (fun a => a.date = ts) =
      l.filter (fun a => a.date = ts) := by
  induction l with
  | nil => simp [ht]
  | cons b l ih =>
    rw [List.orderedInsert]
    by_cases h : dateLe t b
    · rw [if_pos h]
      simp [List.filter_cons, ht]
    · rw [if_neg h]
      simp [List.filter_cons, ih]

/-- Stability of the sort: the entries carrying any fixed timestamp appear in
the sorted output exactly in their original relative order. -/
theorem filter_date_insertionSort (ts : ℚ) (l : List Transaction) :
    (l.insertionSort dateLe).filter (fun a => a.date = ts) =
      l.filter (fun a => a.date = ts) := by
  induction l with
  | nil => rfl
  | cons t l ih =>
    rw [List.insertionSort]
    by_cases ht : t.date = ts
    · rw [filter_date_orderedInsert_of_eq ts t _ ht, ih]
      simp [List.filter_cons, ht]
    · rw [filter_date_orderedInsert_of_ne ts t _ ht, ih]
      simp [List.filter_cons, ht]

/-! ### C4: computeRunningBalances -/

/-- C4: `computeRunningBalances` sorts entries ascending by timestamp, ties
broken by original array order (for any fixed timestamp, the filtered
subsequence of the output equals the filtered subsequence of the input), and
on a non-empty collection the running balance annotated on the last entry is
totalIncome − totalExpense over the full set.  (On the empty collection all
three parts are trivial.) -/
theorem computeRunningBalances_spec (transactions : List Transaction) (ts : ℚ)
    (h : transactions ≠ []) :
    List.Sorted dateLe ((computeRunningBalances transactions).map (·.tx)) ∧
    ((computeRunningBalances transactions).map (·.tx)).filter (fun a => a.date = ts) =
      transactions.filter (fun a => a.date = ts) ∧
    ((computeRunningBalances transactions).map (·.balance)).getLast? =
      some (totalIncome transactions - totalExpense transactions) := by
  refine ⟨?_, ?_, ?_⟩
  · rw [computeRunningBalances, map_tx_annotateBalances]
    exact List.sorted_insertionSort dateLe transactions
  · rw [computeRunningBalances, map_tx_annotateBalances]
    exact filter_date_insertionSort ts transactions
  · have hs : transactions.insertionSort dateLe ≠ [] := by
      intro e
      exact h (List.length_eq_zero.mp
        (by rw [← List.length_insertionSort dateLe transactions, e, List.length_nil]))
    rw [computeRunningBalances, getLast?_annotateBalances _ _ hs, zero_add,
      signedSum_perm (List.perm_insertionSort dateLe transactions),
      signedSum_eq_income_sub_expense]

/-- Witness for C4 at the spec's sample scenario: Income 1000 then Expense
300 (later timestamp) gives a sorted, stable output whose final running
balance is 700. -/
theorem computeRunningBalances_spec_witness :
    ((computeRunningBalances
        [⟨"a1".toList, 0, "sale".toList, 1000, TransactionType.INCOME⟩,
         ⟨"a2".toList, 1, "costs".toList, 300, TransactionType.EXPENSE⟩]).map
      (·.balance)).getLast? =
      some (totalIncome
          [⟨"a1".toList, 0, "sale".toList, 1000, TransactionType.INCOME⟩,
           ⟨"a2".toList, 1, "costs".toList, 300, TransactionType.EXPENSE⟩] -
        totalExpense
          [⟨"a1".toList, 0, "sale".toList, 1000, TransactionType.INCOME⟩,
           ⟨"a2".toList, 1, "costs".toList, 300, TransactionType.EXPENSE⟩]) :=
  (computeRunningBalances_spec
    [⟨"a1".toList, 0, "sale".toList, 1000, TransactionType.INCOME⟩,
     ⟨"a2".toList, 1, "costs".toList, 300, TransactionType.EXPENSE⟩] 0
    (List.cons_ne_nil _ _)).2.2

/-! ### Helper lemmas: the receivables propagation fold -/

theorem setReceivables_apply_other (total : ℚ) (recs : RecordsMap) (k d : ℤ) (h : d ≠ k) :
    setReceivables total recs k d = recs d := by
  simp [setReceivables, h]

theorem setReceivables_apply_same (total : ℚ) (recs : RecordsMap) (k : ℤ) :
    setReceivables total recs k k =
      some { (recs k).getD (DEFAULT_SHIPPING_RECORD k) with receivables := total } := by
  simp [setReceivables]

theorem foldl_setReceivables_not_mem (total : ℚ) (L : List ℤ) (m : RecordsMap) (d : ℤ)
    (hd : d ∉ L) : (L.foldl (setReceivables total) m) d = m d := by
  induction L generalizing m with
  | nil => rfl
  | cons k ks ih =>
    rw [List.foldl_cons, ih _ (fun h => hd (List.mem_cons_of_mem _ h))]
    exact setReceivables_apply_other total m k d (fun e => hd (e ▸ List.mem_cons_self k ks))

theorem foldl_setReceivables_mem (total : ℚ) (L : List ℤ) (m : RecordsMap) (d : ℤ)
    (hnd : L.Nodup) (hd : d ∈ L) :
    (L.foldl (setReceivables total) m) d =
      some { (m d).getD (DEFAULT_SHIPPING_RECORD d) with receivables := total } := by
  induction L generalizing m with
  | nil => cases hd
  | cons k ks ih =>
    rw [List.foldl_cons]
    rcases List.mem_cons.mp hd with rfl | hmem
    · rw [foldl_setReceivables_not_mem total ks _ d (List.nodup_cons.mp hnd).1,
        setReceivables_apply_same]
    · have hk : d ≠ k := fun e => (List.nodup_cons.mp hnd).1 (e ▸ hmem)
      rw [ih _ (List.nodup_cons.mp hnd).2 hmem, setReceivables_apply_other total m k d hk]

theorem nodup_getDaysInYear (n : ℕ) : (getDaysInYear n).Nodup :=
  List.Nodup.map (f := fun i : ℕ => (i : ℤ))
    (fun a b h => by
      have h' : (a : ℤ) = (b : ℤ) := h
      exact_mod_cast h')
    (List.nodup_range n)

theorem mem_getDaysInYear {n : ℕ} {d : ℤ} : d ∈ getDaysInYear n ↔ 0 ≤ d ∧ d < (n : ℤ) := by
  constructor
  · intro h
    obtain ⟨i, hi, rfl⟩ := List.mem_map.mp h
    have hi' := List.mem_range.mp hi
    omega
  · rintro ⟨h0, hn⟩
    refine List.mem_map.mpr ⟨d.toNat, List.mem_range.mpr (by omega), ?_⟩
    show (d.toNat : ℤ) = d
    exact Int.toNat_of_nonneg h0

/-! ### Helper lemmas: the instant-level date arithmetic of the modal -/

theorem toYyyyMmDd_localMidnight (off k : ℤ) (h1 : -MS_PER_DAY < off)
    (h2 : off < MS_PER_DAY) :
    toYyyyMmDd (localMidnight off k) = k + (if 0 < off then -1 else 0) := by
  rw [toYyyyMmDd, localMidnight, Int.fdiv_eq_ediv _ (by decide)]
  simp only [MS_PER_DAY] at h1 h2 ⊢
  split_ifs with h <;> omega

theorem setHoursZero_parseDateKey (off K : ℤ) (h1 : -MS_PER_DAY < off)
    (h2 : off < MS_PER_DAY) :
    setHoursZero off (parseDateKey K) =
      localMidnight off (K + (if off < 0 then -1 else 0)) := by
  rw [setHoursZero, parseDateKey, localMidnight, Int.fdiv_eq_ediv _ (by decide)]
  simp only [MS_PER_DAY] at h1 h2 ⊢
  split_ifs with h <;> omega

theorem localMidnight_le_iff (off a b : ℤ) :
    localMidnight off a ≤ localMidnight off b ↔ a ≤ b := by
  simp only [localMidnight, MS_PER_DAY]
  omega

theorem mem_futureKeys_iff (off : ℤ) (n : ℕ) (K j : ℤ) (h1 : -MS_PER_DAY < off)
    (h2 : off < MS_PER_DAY) :
    (j ∈ ((getDaysInYearTZ off n).filter
        (fun d => setHoursZero off (parseDateKey K) ≤ d)).map toYyyyMmDd) ↔
      ∃ k : ℕ, (k : ℤ) < (n : ℤ) ∧ K + (if off < 0 then -1 else 0) ≤ (k : ℤ) ∧
        j = (k : ℤ) + (if 0 < off then -1 else 0) := by
  constructor
  · intro hj
    obtain ⟨d, hd, rfl⟩ := List.mem_map.mp hj
    obtain ⟨hdm, hdle⟩ := List.mem_filter.mp hd
    rw [getDaysInYearTZ] at hdm
    obtain ⟨k, hk, rfl⟩ := List.mem_map.mp hdm
    rw [List.mem_range] at hk
    refine ⟨k, by exact_mod_cast hk, ?_, toYyyyMmDd_localMidnight off _ h1 h2⟩
    have hle : setHoursZero off (parseDateKey K) ≤ localMidnight off (k : ℤ) := by
      simpa using hdle
    rwa [setHoursZero_parseDateKey off K h1 h2, localMidnight_le_iff] at hle
  · rintro ⟨k, hk, hge, rfl⟩
    refine List.mem_map.mpr ⟨localMidnight off (k : ℤ), List.mem_filter.mpr ⟨?_, ?_⟩,
      toYyyyMmDd_localMidnight off _ h1 h2⟩
    · rw [getDaysInYearTZ]
      exact List.mem_map.mpr ⟨k, List.mem_range.mpr (by exact_mod_cast hk), rfl⟩
    · simp only [decide_eq_true_eq]
      rw [setHoursZero_parseDateKey off K h1 h2, localMidnight_le_iff]
      exact hge

theorem mem_renderedKeys_iff (off : ℤ) (n : ℕ) (j : ℤ) (h1 : -MS_PER_DAY < off)
    (h2 : off < MS_PER_DAY) :
    (j ∈ (getDaysInYearTZ off n).map toYyyyMmDd) ↔
      ∃ k : ℕ, (k : ℤ) < (n : ℤ) ∧ j = (k : ℤ) + (if 0 < off then -1 else 0) := by
  constructor
  · intro hj
    obtain ⟨d, hd, rfl⟩ := List.mem_map.mp hj
    rw [getDaysInYearTZ] at hd
    obtain ⟨k, hk, rfl⟩ := List.mem_map.mp hd
    rw [List.mem_range] at hk
    exact ⟨k, by exact_mod_cast hk, toYyyyMmDd_localMidnight off _ h1 h2⟩
  · rintro ⟨k, hk, rfl⟩
    refine List.mem_map.mpr ⟨localMidnight off (k : ℤ), ?_,
      toYyyyMmDd_localMidnight off _ h1 h2⟩
    rw [getDaysInYearTZ]
    exact List.mem_map.mpr ⟨k, List.mem_range.mpr (by exact_mod_cast hk), rfl⟩

theorem nodup_futureKeys (off : ℤ) (n : ℕ) (K : ℤ) (h1 : -MS_PER_DAY < off)
    (h2 : off < MS_PER_DAY) :
    (((getDaysInYearTZ off n).filter
        (fun d => setHoursZero off (parseDateKey K) ≤ d)).map toYyyyMmDd).Nodup := by
  have hbase : (getDaysInYearTZ off n).Nodup := by
    rw [getDaysInYearTZ]
    refine List.Nodup.map ?_ (List.nodup_range n)
    intro a b hab
    simp only [localMidnight, MS_PER_DAY] at hab
    omega
  refine List.Nodup.map_on ?_ (hbase.filter _)
  intro x hx y hy hxy
  have hx' := (List.mem_filter.mp hx).1
  have hy' := (List.mem_filter.mp hy).1
  rw [getDaysInYearTZ] at hx' hy'
  obtain ⟨kx, hkx, rfl⟩ := List.mem_map.mp hx'
  obtain ⟨ky, hky, rfl⟩ := List.mem_map.mp hy'
  rw [toYyyyMmDd_localMidnight off _ h1 h2, toYyyyMmDd_localMidnight off _ h1 h2] at hxy
  have hk : (kx : ℤ) = (ky : ℤ) := add_right_cancel hxy
  rw [show kx = ky from by exact_mod_cast hk]

theorem propagateReceivables_eq_keyed_foldl (n : ℕ) (off : ℤ) (m : RecordsMap) (K : ℤ)
    (newTotalBalance : ℚ) :
    propagateReceivables n off m K newTotalBalance =
      (((getDaysInYearTZ off n).filter
          (fun d => setHoursZero off (parseDateKey K) ≤ d)).map toYyyyMmDd).foldl
        (setReceivables newTotalBalance) m := by
  rw [List.foldl_map]
  rfl

/-- The keyed day-index propagation is exactly the instant-level propagation
of a zero-offset (UTC) environment. -/
theorem propagateReceivables_zero_offset (n : ℕ) (m : RecordsMap) (K : ℤ)
    (newTotalBalance : ℚ) :
    propagateReceivables n 0 m K newTotalBalance =
      propagateReceivablesUTC n m K newTotalBalance := by
  have key : ∀ l : List ℕ,
      ((l.map (fun (k : ℕ) => localMidnight 0 (k : ℤ))).filter
          (fun d => setHoursZero 0 (parseDateKey K) ≤ d)).map toYyyyMmDd =
        (l.map (fun (i : ℕ) => (i : ℤ))).filter (fun d => K ≤ d) := by
    intro l
    induction l with
    | nil => rfl
    | cons a l ih =>
      have hms : setHoursZero 0 (parseDateKey K) = localMidnight 0 K := by
        rw [setHoursZero_parseDateKey 0 K (by decide) (by decide)]
        norm_num
      have hcond : (setHoursZero 0 (parseDateKey K) ≤ localMidnight 0 (a : ℤ)) ↔
          K ≤ (a : ℤ) := by
        rw [hms, localMidnight_le_iff]
      have hkey0 : toYyyyMmDd (localMidnight 0 (a : ℤ)) = (a : ℤ) := by
        rw [toYyyyMmDd_localMidnight 0 _ (by decide) (by decide)]
        norm_num
      simp only [List.map_cons, List.filter_cons]
      by_cases hc : K ≤ (a : ℤ)
      · rw [if_pos (by simp [hcond, hc]), if_pos (by simp [hc]), List.map_cons, hkey0, ih]
      · rw [if_neg (by simp [hcond, hc]), if_neg (by simp [hc]), ih]
  rw [propagateReceivables_eq_keyed_foldl, propagateReceivablesUTC]
  rw [show getDaysInYearTZ 0 n = (List.range n).map (fun (k : ℕ) => localMidnight 0 (k : ℤ))
    from rfl]
  rw [key (List.range n)]
  rfl

/-! ### C1: receivables propagation (corrected) -/

/-- Counterexample to C1 as stated: in an environment at UTC offset +2 hours
(the app's ar-EG locale), a customer transaction added through the modal
opened against the row keyed day 2 of a 5-day year also creates/overwrites
the record keyed day 1 — a record with date < D, which the claim says is
left unchanged. -/
theorem handleAddTransaction_propagates_counterexample :
    (1 : ℤ) < 2 ∧
    emptyRecords 1 = none ∧
    (handleAddTransaction 5 7200000 [⟨"c1".toList, "ahmed".toList, []⟩] emptyRecords
        "c1".toList ⟨"t1".toList, 0, "debt".toList, 500⟩ 2).2 1 ≠ none := by
  refine ⟨by decide, rfl, by decide⟩

/-- C1 (amended): adding a customer transaction via the receivables modal
opened against the row keyed D, in an environment with fixed UTC offset
`off` (|off| < one day): every rendered record key ≥ D within the year is
overwritten with the new total balance summed over all customers (the rest
of the record coming from the prior record at that key, the default if
absent), and every record keyed < D − 1 is left unchanged.  The record keyed
D − 1 is unchanged when the offset is zero, but at any nonzero offset (for a
D with a preceding day in the tracked range) it is ALSO overwritten: the
`setHours(0,0,0,0)` renormalization of the UTC-midnight parse of D starts
the propagation one key early, so the original "date < D unchanged" holds
only in UTC. -/
theorem handleAddTransaction_propagates_amended (n : ℕ) (off : ℤ)
    (customers : List Customer) (m : RecordsMap) (selectedCustomerId : List Char)
    (newTransaction : CustomerTransaction) (K : ℤ)
    (hoff₁ : -MS_PER_DAY < off) (hoff₂ : off < MS_PER_DAY) :
    (∀ j : ℤ, j < K - 1 →
      (handleAddTransaction n off customers m selectedCustomerId newTransaction K).2 j =
        m j) ∧
    (off = 0 →
      (handleAddTransaction n off customers m selectedCustomerId newTransaction K).2 (K - 1) =
        m (K - 1)) ∧
    (off ≠ 0 → 1 ≤ K → K < (n : ℤ) →
      (handleAddTransaction n off customers m selectedCustomerId newTransaction K).2 (K - 1) =
        some { (m (K - 1)).getD (DEFAULT_SHIPPING_RECORD (K - 1)) with
          receivables := (((handleAddTransaction n off customers m selectedCustomerId
              newTransaction K).1).map calculateCustomerBalance).sum }) ∧
    (∀ j ∈ (getDaysInYearTZ off n).map toYyyyMmDd, K ≤ j →
      (handleAddTransaction n off customers m selectedCustomerId newTransaction K).2 j =
        some { (m j).getD (DEFAULT_SHIPPING_RECORD j) with
          receivables := (((handleAddTransaction n off customers m selectedCustomerId
              newTransaction K).1).map calculateCustomerBalance).sum }) := by
  set total := (((handleAddTransaction n off customers m selectedCustomerId
      newTransaction K).1).map calculateCustomerBalance).sum with htotal
  have hrec : (handleAddTransaction n off customers m selectedCustomerId newTransaction K).2 =
      (((getDaysInYearTZ off n).filter
          (fun d => setHoursZero off (parseDateKey K) ≤ d)).map toYyyyMmDd).foldl
        (setReceivables total) m := by
    show propagateReceivables n off m K total = _
    exact propagateReceivables_eq_keyed_foldl n off m K total
  refine ⟨?_, ?_, ?_, ?_⟩
  · intro j hj
    rw [hrec]
    refine foldl_setReceivables_not_mem _ _ m j (fun hmem => ?_)
    rw [mem_futureKeys_iff off n K j hoff₁ hoff₂] at hmem
    obtain ⟨k, hk, hge, hj'⟩ := hmem
    split_ifs at hge hj' <;> omega
  · intro h0
    subst h0
    rw [hrec]
    refine foldl_setReceivables_not_mem _ _ m _ (fun hmem => ?_)
    rw [mem_futureKeys_iff 0 n K _ hoff₁ hoff₂] at hmem
    obtain ⟨k, hk, hge, hj'⟩ := hmem
    norm_num at hge hj'
    omega
  · intro hne hK1 hKn
    have hmem : (K - 1) ∈ ((getDaysInYearTZ off n).filter
        (fun d => setHoursZero off (parseDateKey K) ≤ d)).map toYyyyMmDd := by
      rw [mem_futureKeys_iff off n K _ hoff₁ hoff₂]
      rcases lt_or_gt_of_ne hne with hneg | hpos
      · refine ⟨(K - 1).toNat, ?_, ?_, ?_⟩
        · omega
        · rw [if_pos hneg]
          omega
        · rw [if_neg (by omega : ¬(0:ℤ) < off)]
          omega
      · refine ⟨K.toNat, ?_, ?_, ?_⟩
        · omega
        · rw [if_neg (by omega : ¬off < 0)]
          omega
        · rw [if_pos hpos]
          omega
    rw [hrec, foldl_setReceivables_mem _ _ m (K - 1)
      (nodup_futureKeys off n K hoff₁ hoff₂) hmem]
  · intro j hjmem hKj
    have hmem : j ∈ ((getDaysInYearTZ off n).filter
        (fun d => setHoursZero off (parseDateKey K) ≤ d)).map toYyyyMmDd := by
      rw [mem_renderedKeys_iff off n j hoff₁ hoff₂] at hjmem
      obtain ⟨k, hk, rfl⟩ := hjmem
      rw [mem_futureKeys_iff off n K _ hoff₁ hoff₂]
      refine ⟨k, hk, ?_, rfl⟩
      split_ifs at hKj ⊢ <;> omega
    rw [hrec, foldl_setReceivables_mem _ _ m j
      (nodup_futureKeys off n K hoff₁ hoff₂) hmem]

/-- Witness for the amended C1: a 5-day year over the empty records map, one
customer, a +500 transaction against the row keyed 2.  At UTC offset +2h the
record keyed 1 (= D − 1) is also overwritten while the record keyed 0 stays
absent; at offset 0 the record keyed 1 stays absent; the rendered key 3 ≥ D
is overwritten in both cases (shown at +2h). -/
theorem handleAddTransaction_propagates_amended_witness :
    (handleAddTransaction 5 7200000 [⟨"c1".toList, "ahmed".toList, []⟩] emptyRecords
        "c1".toList ⟨"t1".toList, 0, "debt".toList, 500⟩ 2).2 1 =
      some { (emptyRecords 1).getD (DEFAULT_SHIPPING_RECORD 1) with
        receivables := (((handleAddTransaction 5 7200000
            [⟨"c1".toList, "ahmed".toList, []⟩] emptyRecords "c1".toList
            ⟨"t1".toList, 0, "debt".toList, 500⟩ 2).1).map calculateCustomerBalance).sum } ∧
    (handleAddTransaction 5 7200000 [⟨"c1".toList, "ahmed".toList, []⟩] emptyRecords
        "c1".toList ⟨"t1".toList, 0, "debt".toList, 500⟩ 2).2 0 = emptyRecords 0 ∧
    (handleAddTransaction 5 0 [⟨"c1".toList, "ahmed".toList, []⟩] emptyRecords
        "c1".toList ⟨"t1".toList, 0, "debt".toList, 500⟩ 2).2 1 = emptyRecords 1 ∧
    (handleAddTransaction 5 7200000 [⟨"c1".toList, "ahmed".toList, []⟩] emptyRecords
        "c1".toList ⟨"t1".toList, 0, "debt".toList, 500⟩ 2).2 3 =
      some { (emptyRecords 3).getD (DEFAULT_SHIPPING_RECORD 3) with
        receivables := (((handleAddTransaction 5 7200000
            [⟨"c1".toList, "ahmed".toList, []⟩] emptyRecords "c1".toList
            ⟨"t1".toList, 0, "debt".toList, 500⟩ 2).1).map calculateCustomerBalance).sum } := by
  obtain ⟨ha, -, hc, hd⟩ := handleAddTransaction_propagates_amended 5 7200000
    [⟨"c1".toList, "ahmed".toList, []⟩] emptyRecords "c1".toList
    ⟨"t1".toList, 0, "debt".toList, 500⟩ 2 (by decide) (by decide)
  obtain ⟨-, hb0, -, -⟩ := handleAddTransaction_propagates_amended 5 0
    [⟨"c1".toList, "ahmed".toList, []⟩] emptyRecords "c1".toList
    ⟨"t1".toList, 0, "debt".toList, 500⟩ 2 (by decide) (by decide)
  have h21 : (2 : ℤ) - 1 = 1 := by decide
  refine ⟨?_, ha 0 (by decide), hb0 rfl, hd 3 (by decide) (by decide)⟩
  have := hc (by decide) (by decide) (by decide)
  rwa [h21] at this

/-! ### Helper lemmas: handler applications and reachable-state invariants -/

theorem handlePaymentChange_apply_other (m : RecordsMap) (date : ℤ) (field : PaymentField)
    (value : Option ℚ) (d : ℤ) (h : d ≠ date) :
    handlePaymentChange m date field value d = m d := by
  simp [handlePaymentChange, h]

theorem handleSaveCashDetails_apply_same (m : RecordsMap) (date : ℤ)
    (cashDetails : List CashDenomination) :
    handleSaveCashDetails m date cashDetails date =
      some { (m date).getD (DEFAULT_SHIPPING_RECORD date) with cashDetails := cashDetails } := by
  simp [handleSaveCashDetails]

theorem handleSaveCashDetails_apply_other (m : RecordsMap) (date : ℤ)
    (cashDetails : List CashDenomination) (d : ℤ) (h : d ≠ date) :
    handleSaveCashDetails m date cashDetails d = m d := by
  simp [handleSaveCashDetails, h]

theorem modalCashDetails_invariant (counts : ℚ → ℤ) (item : CashDenomination)
    (h : item ∈ modalCashDetails counts) :
    item.value ∈ SHIPPING_DENOMINATIONS ∧ 0 < item.count := by
  obtain ⟨hmem, hpos⟩ := List.mem_filter.mp h
  obtain ⟨v, hv, rfl⟩ := List.mem_map.mp hmem
  exact ⟨hv, by simpa using hpos⟩

theorem foldl_setReceivables_preserves (total : ℚ) (L : List ℤ) (m : RecordsMap)
    (hm : ∀ d r, m d = some r → ∀ item ∈ r.cashDetails,
      item.value ∈ SHIPPING_DENOMINATIONS ∧ 0 < item.count) :
    ∀ d r, (L.foldl (setReceivables total) m) d = some r → ∀ item ∈ r.cashDetails,
      item.value ∈ SHIPPING_DENOMINATIONS ∧ 0 < item.count := by
  induction L generalizing m with
  | nil => exact hm
  | cons k ks ih =>
    rw [List.foldl_cons]
    apply ih
    intro d r hr item hitem
    by_cases hdk : d = k
    · subst hdk
      rw [setReceivables_apply_same] at hr
      cases hr
      have hitem' : item ∈ ((m d).getD (DEFAULT_SHIPPING_RECORD d)).cashDetails := hitem
      cases hmd : m d with
      | none =>
        rw [hmd] at hitem'
        simp [DEFAULT_SHIPPING_RECORD] at hitem'
      | some r' =>
        rw [hmd] at hitem'
        exact hm d r' hmd item hitem'
    · rw [setReceivables_apply_other _ _ _ _ hdk] at hr
      exact hm d r hr item hitem

theorem reachable_cashDetails_inv {n : ℕ} {m : RecordsMap} (h : Reachable n m) :
    ∀ d r, m d = some r → ∀ item ∈ r.cashDetails,
      item.value ∈ SHIPPING_DENOMINATIONS ∧ 0 < item.count := by
  induction h with
  | init =>
    intro d r hr
    exact absurd hr (by simp [emptyRecords])
  | @payment m' date field value hm hdate ih =>
    intro d r hr item hitem
    by_cases hdd : d = date
    · subst hdd
      obtain ⟨p, hp⟩ : ∃ p, handlePaymentChange m' d field value d =
          some { (m' d).getD (DEFAULT_SHIPPING_RECORD d) with payments := p } := by
        cases value with
        | none =>
          refine ⟨((m' d).getD (DEFAULT_SHIPPING_RECORD d)).payments.set field 0, ?_⟩
          simp [handlePaymentChange]
        | some q =>
          refine ⟨((m' d).getD (DEFAULT_SHIPPING_RECORD d)).payments.set field q, ?_⟩
          simp [handlePaymentChange]
      rw [hp, Option.some.injEq] at hr
      subst hr
      have hitem' : item ∈ ((m' d).getD (DEFAULT_SHIPPING_RECORD d)).cashDetails := hitem
      cases hmd : m' d with
      | none =>
        rw [hmd] at hitem'
        simp [DEFAULT_SHIPPING_RECORD] at hitem'
      | some r' =>
        rw [hmd] at hitem'
        exact ih d r' hmd item hitem'
    · rw [handlePaymentChange_apply_other m' date field value d hdd] at hr
      exact ih d r hr item hitem
  | @cashSave m' date counts hm hdate ih =>
    intro d r hr item hitem
    by_cases hdd : d = date
    · subst hdd
      rw [handleSaveCashDetails_apply_same] at hr
      cases hr
      exact modalCashDetails_invariant counts item hitem
    · rw [handleSaveCashDetails_apply_other m' date _ d hdd] at hr
      exact ih d r hr item hitem
  | @receivables m' currentDate total hm hdate ih =>
    intro d r hr item hitem
    rw [propagateReceivablesUTC] at hr
    exact foldl_setReceivables_preserves total _ m' ih d r hr item hitem

theorem reachable_dom_subset {n : ℕ} {m : RecordsMap} (h : Reachable n m) :
    ∀ d : ℤ, m d ≠ none → d ∈ getDaysInYear n := by
  induction h with
  | init =>
    intro d hd
    exact absurd rfl hd
  | @payment m' date field value hm hdate ih =>
    intro d hd
    by_cases hdd : d = date
    · subst hdd
      exact hdate
    · exact ih d (by rwa [handlePaymentChange_apply_other m' date field value d hdd] at hd)
  | @cashSave m' date counts hm hdate ih =>
    intro d hd
    by_cases hdd : d = date
    · subst hdd
      exact hdate
    · exact ih d (by rwa [handleSaveCashDetails_apply_other m' date _ d hdd] at hd)
  | @receivables m' currentDate total hm hdate ih =>
    intro d hd
    by_cases hmem : d ∈ (getDaysInYear n).filter (fun x : ℤ => decide (currentDate ≤ x))
    · exact (List.mem_filter.mp hmem).1
    · refine ih d ?_
      rw [propagateReceivablesUTC] at hd
      rwa [foldl_setReceivables_not_mem total _ m' d hmem] at hd

/-! ### C7: the cash-details invariant -/

/-- C7: in every reachable state of the shipping records map, every
materialized record's cashDetails list only holds denominations drawn from
the fixed 8-value set with a strictly positive count — zero-count
denominations having been filtered out by the modal's save. -/
theorem setCashDetails_invariant (n : ℕ) (m : RecordsMap) (h : Reachable n m) (d : ℤ)
    (r : DailyShippingRecord) (hr : m d = some r) (item : CashDenomination)
    (hitem : item ∈ r.cashDetails) :
    item.value ∈ SHIPPING_DENOMINATIONS ∧ 0 < item.count :=
  reachable_cashDetails_inv h d r hr item hitem

/-- Witness for C7: saving a cash count of 1 note per denomination on day 2
of the empty map reaches a state whose day-2 record contains the entry
⟨200, 1⟩, which the theorem places in the denomination set with positive
count. -/
theorem setCashDetails_invariant_witness :
    (CashDenomination.mk 200 1).value ∈ SHIPPING_DENOMINATIONS ∧
      0 < (CashDenomination.mk 200 1).count := by
  have hreach : Reachable 5
      (handleSaveCashDetails emptyRecords 2 (modalCashDetails (fun _ => 1))) :=
    Reachable.cashSave 2 (fun _ => 1) Reachable.init (by decide)
  exact setCashDetails_invariant 5 _ hreach 2
    { DEFAULT_SHIPPING_RECORD 2 with cashDetails := modalCashDetails (fun _ => 1) }
    (by rfl) ⟨200, 1⟩ (by decide)

/-! ### C5: day-over-day difference -/

/-- C5: the per-row difference is grandTotal(date) − grandTotal(date − 1
day), and for the first day of the tracked year (day 0) a reachable records
map holds no record for the preceding out-of-year day, so its zero default
record is used and day 0's difference equals its own grand total. -/
theorem computeDayOverDayDifference_spec (n : ℕ) (m : RecordsMap) (date : ℤ)
    (h : Reachable n m) :
    computeDayOverDayDifference m date =
      (getRecordCalculations m date).grandTotal -
        (getRecordCalculations m (date - 1)).grandTotal ∧
    computeDayOverDayDifference m 0 = (getRecordCalculations m 0).grandTotal := by
  refine ⟨rfl, ?_⟩
  have hnone : m (-1) = none := by
    by_contra hne
    have hmem := reachable_dom_subset h (-1) hne
    rw [mem_getDaysInYear] at hmem
    omega
  rw [computeDayOverDayDifference]
  have hprev : (getRecordCalculations m (0 - 1)).grandTotal = 0 := by
    rw [show (0:ℤ) - 1 = -1 by decide]
    simp [getRecordCalculations, hnone, DEFAULT_SHIPPING_RECORD, Payments.total]
  rw [hprev, sub_zero]

/-- Witness for C5: over the (reachable) empty records map, day 0's
difference equals its own grand total. -/
theorem computeDayOverDayDifference_spec_witness :
    computeDayOverDayDifference emptyRecords 0 =
      (getRecordCalculations emptyRecords 0).grandTotal :=
  (computeDayOverDayDifference_spec 365 emptyRecords 0 Reachable.init).2

/-! ### C9: truthiness validation rejects falsy-but-present fields -/

/-- C9: the import's per-entry validation is a truthiness check on each
required field, so an entry whose amount is 0, or whose id or description is
the empty string, causes the entire import to be rejected as invalid — and
the collection kept unchanged — even though every required field is present
on the entry. -/
theorem handleImport_truthiness_rejection (existing : List Transaction) (payload : JVal)
    (entries : List JVal) (t : JVal)
    (hpayload : payload.get "transactions".toList = some (JVal.arr entries))
    (ht : t ∈ entries)
    (_hpresent : (t.get "id".toList).isSome ∧ (t.get "date".toList).isSome ∧
      (t.get "description".toList).isSome ∧ (t.get "amount".toList).isSome ∧
      (t.get "type".toList).isSome)
    (hfalsy : t.get "amount".toList = some (JVal.num 0) ∨
      t.get "id".toList = some (JVal.str []) ∨
      t.get "description".toList = some (JVal.str [])) :
    handleImport existing payload = none ∧ applyImport existing payload = existing := by
  have hinvalid : entries.all entryValid = false := by
    rw [List.all_eq_false]
    refine ⟨t, ht, ?_⟩
    rcases hfalsy with h | h | h <;>
      (simp only [entryValid, truthyOpt]; rw [h]; simp [JVal.truthy])
  cases payload with
  | null => exact absurd hpayload (by simp [JVal.get])
  | bool b => exact absurd hpayload (by simp [JVal.get])
  | num q => exact absurd hpayload (by simp [JVal.get])
  | str s => exact absurd hpayload (by simp [JVal.get])
  | arr elems => exact absurd hpayload (by simp [JVal.get])
  | obj fields =>
    have hnone : handleImport existing (JVal.obj fields) = none := by
      simp only [handleImport]
      rw [hpayload]
      simp [JVal.truthy, hinvalid]
    exact ⟨hnone, by simp [applyImport, hnone]⟩

/-- Witness for C9: a backup whose single entry has all five fields present
but amount 0 is rejected outright, leaving the empty collection empty. -/
theorem handleImport_truthiness_rejection_witness :
    handleImport []
        (JVal.obj [("transactions".toList,
          JVal.arr [JVal.obj [("id".toList, JVal.str "a".toList),
            ("date".toList, JVal.num 1),
            ("description".toList, JVal.str "x".toList),
            ("amount".toList, JVal.num 0),
            ("type".toList, JVal.str "e".toList)]])]) = none ∧
      applyImport []
        (JVal.obj [("transactions".toList,
          JVal.arr [JVal.obj [("id".toList, JVal.str "a".toList),
            ("date".toList, JVal.num 1),
            ("description".toList, JVal.str "x".toList),
            ("amount".toList, JVal.num 0),
            ("type".toList, JVal.str "e".toList)]])]) = [] :=
  handleImport_truthiness_rejection [] _ _ _ rfl (List.mem_singleton.mpr rfl)
    ⟨rfl, rfl, rfl, rfl, rfl⟩ (Or.inl rfl)

/-! ### C6: import abort semantics (corrected) -/

/-- Counterexample to C6 as stated: a payload whose transactions value is the
number 0 — present, falsy and not an array — does not abort the import: the
`|| []` fallback replaces it by the empty array and the import succeeds
(merging nothing). -/
theorem handleImport_falsy_transactions_counterexample :
    (JVal.obj [("transactions".toList, JVal.num 0)]).get "transactions".toList =
      some (JVal.num 0) ∧
    handleImport [] (JVal.obj [("transactions".toList, JVal.num 0)]) = some [] := by
  constructor
  · rfl
  · rfl

/-- C6 amended: the import is aborted — with the existing collection left
completely unchanged, no partial merge — when the payload is null, when its
transactions value is truthy but not an array, or when some entry of the
transactions array fails the required-field truthiness validation (in
particular when a required field is missing); a falsy transactions value
instead falls back to the empty array and is not an abort. -/
theorem handleImport_abort_unchanged (existing : List Transaction) (payload : JVal)
    (h : (∃ v, payload.get "transactions".toList = some v ∧ v.truthy = true ∧
            ∀ xs, v ≠ JVal.arr xs) ∨
         (∃ entries t, payload.get "transactions".toList = some (JVal.arr entries) ∧
            t ∈ entries ∧ entryValid t = false) ∨
         payload = JVal.null) :
    handleImport existing payload = none ∧ applyImport existing payload = existing := by
  cases payload with
  | null => exact ⟨rfl, rfl⟩
  | bool b =>
    rcases h with ⟨v, hv, -, -⟩ | ⟨entries, t, hxs, -, -⟩ | hnull
    · exact absurd hv (by simp [JVal.get])
    · exact absurd hxs (by simp [JVal.get])
    · exact JVal.noConfusion hnull
  | num q =>
    rcases h with ⟨v, hv, -, -⟩ | ⟨entries, t, hxs, -, -⟩ | hnull
    · exact absurd hv (by simp [JVal.get])
    · exact absurd hxs (by simp [JVal.get])
    · exact JVal.noConfusion hnull
  | str s =>
    rcases h with ⟨v, hv, -, -⟩ | ⟨entries, t, hxs, -, -⟩ | hnull
    · exact absurd hv (by simp [JVal.get])
    · exact absurd hxs (by simp [JVal.get])
    · exact JVal.noConfusion hnull
  | arr elems =>
    rcases h with ⟨v, hv, -, -⟩ | ⟨entries, t, hxs, -, -⟩ | hnull
    · exact absurd hv (by simp [JVal.get])
    · exact absurd hxs (by simp [JVal.get])
    · exact JVal.noConfusion hnull
  | obj fields =>
    have hnone : handleImport existing (JVal.obj fields) = none := by
      rcases h with ⟨v, hv, htr, hnarr⟩ | ⟨entries, t, hxs, ht, hinv⟩ | hnull
      · simp only [handleImport]
        rw [hv]
        simp only [htr, if_true]
      · have hinvalid : entries.all entryValid = false := by
          rw [List.all_eq_false]
          exact ⟨t, ht, by simp [hinv]⟩
        simp only [handleImport]
        rw [hxs]
        simp [JVal.truthy, hinvalid]
      · exact JVal.noConfusion hnull
    exact ⟨hnone, by simp [applyImport, hnone]⟩

/-- Witness for the amended C6: a payload whose transactions value is the
truthy non-array string "x" aborts the import and leaves the collection
unchanged. -/
theorem handleImport_abort_unchanged_witness :
    handleImport [] (JVal.obj [("transactions".toList, JVal.str "x".toList)]) = none ∧
    applyImport [] (JVal.obj [("transactions".toList, JVal.str "x".toList)]) = [] :=
  handleImport_abort_unchanged [] _
    (Or.inl ⟨JVal.str "x".toList, rfl, by decide, fun xs h => JVal.noConfusion h⟩)

/-! ### Helper lemmas: the id-keyed Map fold of the import merge -/

theorem ids_map_update (m : List Transaction) (t : Transaction) :
    (m.map (fun u => if u.id = t.id then t else u)).map (·.id) = m.map (·.id) := by
  rw [List.map_map]
  apply List.map_congr_left
  intro u _
  by_cases hu : u.id = t.id
  · simp [Function.comp, hu]
  · simp [Function.comp, hu]

theorem any_id_of_mem_ids (m : List Transaction) (j : List Char)
    (h : j ∈ m.map (·.id)) : m.any (fun u => decide (u.id = j)) = true := by
  obtain ⟨u, hu, hui⟩ := List.mem_map.mp h
  exact List.any_eq_true.mpr ⟨u, hu, by simp [hui]⟩

theorem find?_map_update_self (m : List Transaction) (t : Transaction)
    (hany : m.any (fun u => decide (u.id = t.id)) = true) :
    (m.map (fun u => if u.id = t.id then t else u)).find? (fun u => decide (u.id = t.id)) =
      some t := by
  induction m with
  | nil => cases hany
  | cons u us ih =>
    rw [List.map_cons]
    by_cases hu : u.id = t.id
    · rw [if_pos hu, List.find?_cons_of_pos _ (by simp)]
    · rw [if_neg hu, List.find?_cons_of_neg _ (by simpa using hu)]
      refine ih ?_
      rw [List.any_cons] at hany
      simpa [hu] using hany

theorem find?_insertTx_self (m : List Transaction) (t : Transaction) :
    (insertTx m t).find? (fun u => decide (u.id = t.id)) = some t := by
  rw [insertTx]
  by_cases hany : m.any (fun u => decide (u.id = t.id)) = true
  · rw [if_pos hany]
    exact find?_map_update_self m t hany
  · rw [if_neg hany, List.find?_append]
    have hm : m.find? (fun u => decide (u.id = t.id)) = none := by
      rw [List.find?_eq_none]
      intro x hx hpx
      exact hany (List.any_eq_true.mpr ⟨x, hx, hpx⟩)
    rw [hm, Option.none_or, List.find?_cons_of_pos _ (by simp)]

theorem find?_map_update_other (m : List Transaction) (t : Transaction) (i : List Char)
    (hne : i ≠ t.id) :
    (m.map (fun u => if u.id = t.id then t else u)).find? (fun u => decide (u.id = i)) =
      m.find? (fun u => decide (u.id = i)) := by
  induction m with
  | nil => rfl
  | cons u us ih =>
    rw [List.map_cons]
    by_cases hu : u.id = i
    · have hcond : ¬(u.id = t.id) := fun e => hne (hu ▸ e)
      rw [if_neg hcond, List.find?_cons_of_pos _ (by simp [hu]),
        List.find?_cons_of_pos _ (by simp [hu])]
    · have hhead : ¬((if u.id = t.id then t else u).id = i) := by
        by_cases he : u.id = t.id
        · rw [if_pos he]
          exact fun e => hne e.symm
        · rw [if_neg he]
          exact hu
      rw [List.find?_cons_of_neg _ (by simpa using hhead),
        List.find?_cons_of_neg _ (by simpa using hu), ih]

theorem find?_insertTx_other (m : List Transaction) (t : Transaction) (i : List Char)
    (hne : i ≠ t.id) :
    (insertTx m t).find? (fun u => decide (u.id = i)) =
      m.find? (fun u => decide (u.id = i)) := by
  rw [insertTx]
  by_cases hany : m.any (fun u => decide (u.id = t.id)) = true
  · rw [if_pos hany]
    exact find?_map_update_other m t i hne
  · rw [if_neg hany, List.find?_append]
    have h1 : ([t].find? (fun u => decide (u.id = i))) = none := by
      rw [List.find?_eq_none]
      intro x hx
      rw [List.mem_singleton] at hx
      subst hx
      simp only [decide_eq_true_eq]
      exact fun e => hne e.symm
    rw [h1, Option.or_none]

theorem find?_foldl_insertTx (B : List Transaction) (m : List Transaction) (i : List Char) :
    (B.foldl insertTx m).find? (fun u => decide (u.id = i)) =
      ((B.filter (fun u => decide (u.id = i))).getLast?).or
        (m.find? (fun u => decide (u.id = i))) := by
  induction B generalizing m with
  | nil => rw [List.foldl_nil, List.filter_nil, List.getLast?_nil, Option.none_or]
  | cons t B' ih =>
    rw [List.foldl_cons, ih, List.filter_cons]
    by_cases ht : t.id = i
    · subst ht
      rw [if_pos (by simp), find?_insertTx_self]
      have hl : (t :: B'.filter (fun u => decide (u.id = t.id))).getLast? =
          ((B'.filter (fun u => decide (u.id = t.id))).getLast?).or (some t) := by
        cases hfb : B'.filter (fun u => decide (u.id = t.id)) with
        | nil => rw [List.getLast?_singleton, List.getLast?_nil, Option.none_or]
        | cons a as =>
          rw [List.getLast?_cons_cons]
          obtain ⟨x, hx⟩ := Option.isSome_iff_exists.mp
            (List.getLast?_isSome.mpr (List.cons_ne_nil a as))
          rw [hx, Option.or_some]
      rw [hl, Option.or_assoc, Option.or_some]
    · rw [if_neg (by simpa using ht), find?_insertTx_other m t i (fun e => ht e.symm)]

theorem ids_insertTx_of_mem (m : List Transaction) (t : Transaction)
    (h : t.id ∈ m.map (·.id)) :
    (insertTx m t).map (·.id) = m.map (·.id) := by
  rw [insertTx, if_pos (any_id_of_mem_ids m t.id h), ids_map_update]

theorem ids_foldl_insertTx_subset (B : List Transaction) (m : List Transaction)
    (hsub : ∀ t ∈ B, t.id ∈ m.map (·.id)) :
    (B.foldl insertTx m).map (·.id) = m.map (·.id) := by
  induction B generalizing m with
  | nil => rfl
  | cons t B' ih =>
    rw [List.foldl_cons]
    have hids := ids_insertTx_of_mem m t (hsub t (List.mem_cons_self t B'))
    rw [ih (insertTx m t)
      (fun x hx => by rw [hids]; exact hsub x (List.mem_cons_of_mem t hx)), hids]

theorem nodup_ids_insertTx (m : List Transaction) (t : Transaction)
    (h : (m.map (·.id)).Nodup) : ((insertTx m t).map (·.id)).Nodup := by
  rw [insertTx]
  by_cases hany : m.any (fun u => decide (u.id = t.id)) = true
  · rw [if_pos hany, ids_map_update]
    exact h
  · rw [if_neg hany, List.map_append]
    refine List.Nodup.append h (List.nodup_singleton t.id) ?_
    intro a ha hb
    rw [List.map_singleton, List.mem_singleton] at hb
    subst hb
    exact hany (any_id_of_mem_ids m t.id ha)

theorem nodup_ids_foldl_insertTx (B : List Transaction) (m : List Transaction)
    (h : (m.map (·.id)).Nodup) : ((B.foldl insertTx m).map (·.id)).Nodup := by
  induction B generalizing m with
  | nil => exact h
  | cons t B' ih =>
    rw [List.foldl_cons]
    exact ih _ (nodup_ids_insertTx m t h)

theorem foldl_insertTx_of_nodup_append (m l : List Transaction)
    (h : (m.map (·.id) ++ l.map (·.id)).Nodup) : l.foldl insertTx m = m ++ l := by
  induction l generalizing m with
  | nil => rw [List.foldl_nil, List.append_nil]
  | cons t ts ih =>
    rw [List.foldl_cons]
    have hnot : ¬ m.any (fun u => decide (u.id = t.id)) = true := by
      intro hany
      obtain ⟨u, hu, hut⟩ := List.any_eq_true.mp hany
      have hmm : u.id ∈ m.map (·.id) := List.mem_map_of_mem _ hu
      have hdisj := (List.nodup_append.mp h).2.2
      refine hdisj hmm ?_
      rw [show u.id = t.id from by simpa using hut, List.map_cons]
      exact List.mem_cons_self _ _
    have hstep : insertTx m t = m ++ [t] := by
      rw [insertTx, if_neg hnot]
    have hih := ih (m ++ [t]) (by
      rw [List.map_append, List.map_singleton, List.append_assoc, List.singleton_append]
      rw [List.map_cons] at h
      exact h)
    rw [hstep, hih, List.append_assoc, List.singleton_append]

theorem find?_eq_of_perm_nodup {l1 l2 : List Transaction} (hp : l1.Perm l2)
    (hn : (l1.map (·.id)).Nodup) (i : List Char) :
    l1.find? (fun u => decide (u.id = i)) = l2.find? (fun u => decide (u.id = i)) := by
  cases hf : l1.find? (fun u => decide (u.id = i)) with
  | none =>
    rw [List.find?_eq_none] at hf
    symm
    rw [List.find?_eq_none]
    intro x hx
    exact hf x (hp.mem_iff.mpr hx)
  | some x =>
    have hx1 : x ∈ l1 := List.mem_of_find?_eq_some hf
    have hxi : x.id = i := by simpa using List.find?_some hf
    cases hf2 : l2.find? (fun u => decide (u.id = i)) with
    | none =>
      rw [List.find?_eq_none] at hf2
      exact absurd (by simp [hxi]) (hf2 x (hp.mem_iff.mp hx1))
    | some y =>
      have hy1 : y ∈ l1 := hp.mem_iff.mpr (List.mem_of_find?_eq_some hf2)
      have hyi : y.id = i := by simpa using List.find?_some hf2
      rw [List.inj_on_of_nodup_map hn hx1 hy1 (by rw [hxi, hyi])]

theorem eq_of_ids_and_find? (l1 : List Transaction) : ∀ l2 : List Transaction,
    (l1.map (·.id)).Nodup → l1.map (·.id) = l2.map (·.id) →
    (∀ i, l1.find? (fun u => decide (u.id = i)) = l2.find? (fun u => decide (u.id = i))) →
    l1 = l2 := by
  induction l1 with
  | nil =>
    intro l2 _ hids _
    cases l2 with
    | nil => rfl
    | cons b l2 => simp at hids
  | cons a l1 ih =>
    intro l2 hnd hids hfind
    cases l2 with
    | nil => simp at hids
    | cons b l2 =>
      rw [List.map_cons, List.map_cons] at hids
      injection hids with hid hidtl
      have hab : a = b := by
        have h1 := hfind a.id
        rw [List.find?_cons_of_pos _ (by simp),
          List.find?_cons_of_pos _ (by simp [hid])] at h1
        exact Option.some.inj h1
      subst hab
      have hnd' : (l1.map (·.id)).Nodup :=
        (List.nodup_cons.mp (by simpa using hnd)).2
      have hnotmem : a.id ∉ l1.map (·.id) :=
        (List.nodup_cons.mp (by simpa using hnd)).1
      congr 1
      refine ih l2 hnd' hidtl ?_
      intro i
      by_cases hi : i = a.id
      · subst hi
        have h1 : l1.find? (fun u => decide (u.id = a.id)) = none := by
          rw [List.find?_eq_none]
          intro x hx hpx
          exact hnotmem ((by simpa using hpx : x.id = a.id) ▸ List.mem_map_of_mem _ hx)
        have h2 : l2.find? (fun u => decide (u.id = a.id)) = none := by
          rw [List.find?_eq_none]
          intro x hx hpx
          refine hnotmem ?_
          rw [hidtl]
          exact (by simpa using hpx : x.id = a.id) ▸ List.mem_map_of_mem _ hx
        rw [h1, h2]
      · have hmain := hfind i
        rw [List.find?_cons_of_neg _ (by simpa using fun e : a.id = i => hi e.symm),
          List.find?_cons_of_neg _ (by simpa using fun e : a.id = i => hi e.symm)] at hmain
        exact hmain

theorem mem_ids_foldl_insertTx (B m : List Transaction) (t : Transaction) (ht : t ∈ B) :
    t.id ∈ (B.foldl insertTx m).map (·.id) := by
  have hfilter : t ∈ B.filter (fun u => decide (u.id = t.id)) :=
    List.mem_filter.mpr ⟨ht, by simp⟩
  have hne : B.filter (fun u => decide (u.id = t.id)) ≠ [] := by
    intro e
    rw [e] at hfilter
    cases hfilter
  obtain ⟨x, hx⟩ := Option.isSome_iff_exists.mp (List.getLast?_isSome.mpr hne)
  have hfold := find?_foldl_insertTx B m t.id
  rw [hx, Option.or_some] at hfold
  have hxid : x.id = t.id := by simpa using List.find?_some hfold
  rw [← hxid]
  exact List.mem_map_of_mem _ (List.mem_of_find?_eq_some hfold)

theorem importMerge_idempotent (S D : List Transaction) :
    importMerge (importMerge S D) D = importMerge S D := by
  have hperm : (importMerge S D).Perm (dedupeById (S ++ D)) :=
    List.perm_insertionSort dateLe (dedupeById (S ++ D))
  have hnodupD : ((dedupeById (S ++ D)).map (·.id)).Nodup := by
    rw [dedupeById]
    exact nodup_ids_foldl_insertTx (S ++ D) [] List.nodup_nil
  have hnodupR : ((importMerge S D).map (·.id)).Nodup :=
    (hperm.map (·.id)).nodup_iff.mpr hnodupD
  have hsubD : ∀ t ∈ D, t.id ∈ (importMerge S D).map (·.id) := by
    intro t ht
    have h1 : t.id ∈ (dedupeById (S ++ D)).map (·.id) := by
      rw [dedupeById, List.foldl_append]
      exact mem_ids_foldl_insertTx D (S.foldl insertTx []) t ht
    exact ((hperm.map (·.id)).mem_iff).mpr h1
  have hdedup : dedupeById (importMerge S D ++ D) = D.foldl insertTx (importMerge S D) := by
    rw [dedupeById, List.foldl_append]
    congr 1
    simpa using foldl_insertTx_of_nodup_append [] (importMerge S D) (by simpa using hnodupR)
  have hids : (D.foldl insertTx (importMerge S D)).map (·.id) =
      (importMerge S D).map (·.id) :=
    ids_foldl_insertTx_subset D _ hsubD
  have hfind : ∀ i, (D.foldl insertTx (importMerge S D)).find? (fun u => decide (u.id = i)) =
      (importMerge S D).find? (fun u => decide (u.id = i)) := by
    intro i
    rw [find?_foldl_insertTx]
    cases hlast : (D.filter (fun u => decide (u.id = i))).getLast? with
    | none => rw [Option.none_or]
    | some x =>
      rw [Option.or_some, find?_eq_of_perm_nodup hperm hnodupR i,
        show dedupeById (S ++ D) = D.foldl insertTx (S.foldl insertTx []) from by
          rw [dedupeById, List.foldl_append],
        find?_foldl_insertTx, hlast, Option.or_some]
  have hEq : D.foldl insertTx (importMerge S D) = importMerge S D :=
    eq_of_ids_and_find? _ _ (by rw [hids]; exact hnodupR) hids hfind
  show (dedupeById (importMerge S D ++ D)).insertionSort dateLe = importMerge S D
  rw [hdedup, hEq]
  exact List.Sorted.insertionSort_eq (List.sorted_insertionSort dateLe (dedupeById (S ++ D)))

theorem handleImport_eq_merge (existing : List Transaction) (payload : JVal)
    (merged : List Transaction) (h : handleImport existing payload = some merged) :
    ∃ D, merged = importMerge existing D ∧
      ∀ S, handleImport S payload = some (importMerge S D) := by
  cases payload with
  | null => exact absurd h (by simp [handleImport])
  | bool b =>
    have hS : ∀ S, handleImport S (JVal.bool b) = some (importMerge S []) := fun S => rfl
    exact ⟨[], by rw [hS existing] at h; exact (Option.some.inj h).symm, hS⟩
  | num q =>
    have hS : ∀ S, handleImport S (JVal.num q) = some (importMerge S []) := fun S => rfl
    exact ⟨[], by rw [hS existing] at h; exact (Option.some.inj h).symm, hS⟩
  | str s =>
    have hS : ∀ S, handleImport S (JVal.str s) = some (importMerge S []) := fun S => rfl
    exact ⟨[], by rw [hS existing] at h; exact (Option.some.inj h).symm, hS⟩
  | arr elems =>
    have hS : ∀ S, handleImport S (JVal.arr elems) = some (importMerge S []) := fun S => rfl
    exact ⟨[], by rw [hS existing] at h; exact (Option.some.inj h).symm, hS⟩
  | obj fields =>
    cases hget : (JVal.obj fields).get "transactions".toList with
    | none =>
      have hS : ∀ S, handleImport S (JVal.obj fields) = some (importMerge S []) := by
        intro S
        simp only [handleImport]
        rw [hget]
        rfl
      exact ⟨[], by rw [hS existing] at h; exact (Option.some.inj h).symm, hS⟩
    | some v =>
      cases htr : v.truthy with
      | false =>
        have hS : ∀ S, handleImport S (JVal.obj fields) = some (importMerge S []) := by
          intro S
          simp only [handleImport]
          rw [hget]
          simp [htr]
        exact ⟨[], by rw [hS existing] at h; exact (Option.some.inj h).symm, hS⟩
      | true =>
        cases v with
        | null => exact absurd htr (by simp [JVal.truthy])
        | bool bb =>
          refine absurd h ?_
          have hnone : handleImport existing (JVal.obj fields) = none := by
            simp only [handleImport]
            rw [hget]
            simp [htr]
          rw [hnone]
          exact fun e => Option.noConfusion e
        | num qq =>
          refine absurd h ?_
          have hnone : handleImport existing (JVal.obj fields) = none := by
            simp only [handleImport]
            rw [hget]
            simp [htr]
          rw [hnone]
          exact fun e => Option.noConfusion e
        | str ss =>
          refine absurd h ?_
          have hnone : handleImport existing (JVal.obj fields) = none := by
            simp only [handleImport]
            rw [hget]
            simp [htr]
          rw [hnone]
          exact fun e => Option.noConfusion e
        | obj fs =>
          refine absurd h ?_
          have hnone : handleImport existing (JVal.obj fields) = none := by
            simp only [handleImport]
            rw [hget]
            simp [htr]
          rw [hnone]
          exact fun e => Option.noConfusion e
        | arr entries =>
          cases hval : entries.all entryValid with
          | false =>
            refine absurd h ?_
            have hnone : handleImport existing (JVal.obj fields) = none := by
              simp only [handleImport]
              rw [hget]
              simp [JVal.truthy, hval]
            rw [hnone]
            exact fun e => Option.noConfusion e
          | true =>
            have hS : ∀ S, handleImport S (JVal.obj fields) =
                some (importMerge S (entries.map decodeTx)) := by
              intro S
              simp only [handleImport]
              rw [hget]
              simp [JVal.truthy, hval]
            exact ⟨entries.map decodeTx,
              by rw [hS existing] at h; exact (Option.some.inj h).symm, hS⟩

/-! ### C2: importing the same backup twice -/

/-- C2: the import is idempotent — whenever importing a backup payload into
the existing collection succeeds with a merged collection, importing the same
payload into that merged collection succeeds and returns exactly the same
collection (same entries, same order). -/
theorem handleImport_idempotent (existing : List Transaction) (payload : JVal)
    (merged : List Transaction) (h : handleImport existing payload = some merged) :
    handleImport merged payload = some merged := by
  obtain ⟨D, rfl, hall⟩ := handleImport_eq_merge existing payload merged h
  rw [hall (importMerge existing D), importMerge_idempotent]

/-- Witness for C2: importing a one-entry backup into the empty collection
and then importing it again returns the same merged collection. -/
theorem handleImport_idempotent_witness :
    handleImport
        (importMerge []
          ([JVal.obj [("id".toList, JVal.str "a".toList),
            ("date".toList, JVal.num 1),
            ("description".toList, JVal.str "x".toList),
            ("amount".toList, JVal.num 5),
            ("type".toList, JVal.str "e".toList)]].map decodeTx))
        (JVal.obj [("transactions".toList,
          JVal.arr [JVal.obj [("id".toList, JVal.str "a".toList),
            ("date".toList, JVal.num 1),
            ("description".toList, JVal.str "x".toList),
            ("amount".toList, JVal.num 5),
            ("type".toList, JVal.str "e".toList)]])]) =
      some (importMerge []
        ([JVal.obj [("id".toList, JVal.str "a".toList),
          ("date".toList, JVal.num 1),
          ("description".toList, JVal.str "x".toList),
          ("amount".toList, JVal.num 5),
          ("type".toList, JVal.str "e".toList)]].map decodeTx)) :=
  handleImport_idempotent [] _ _ rfl

end Cashier
